import Mathlib

/-!
Verification of the train/validation/test splitting routine
`split_to_train_val_test(df, label_column, splits=(0.7, 0.2, 0.1))`
from the workshop notebook.

The dataframe is embedded as a list of rows; each row carries its index
(`id`, the pandas index value), the value of the label column (`label`),
and the remaining payload (`data`).  pandas `DataFrame.sample(frac=f)`
draws `round(f * len)` distinct rows (Python banker's rounding), the
draw order being decided by the random source; the random source is
embedded as an explicit family `gen : Nat → List Nat` of priority lists,
one per `sample` call, standing for the process-global numpy generator
state the notebook relies on.  Ratios are embedded as rationals;
Python's float `ZeroDivisionError` and the `ValueError`s raised inside
pandas `sample` become explicit error values.
-/

structure Row where
  id : Nat
  label : String
  data : String
deriving DecidableEq

abbrev Frame := List Row

/-- Failure modes reachable in the body of `split_to_train_val_test`:
a negative row count requested from pandas `sample`, a row count larger
than the population requested from `sample`, and Python's
`ZeroDivisionError` from `splits[2]/(splits[1] + splits[2])`. -/
inductive SplitErr where
  | negSample
  | upsample
  | zeroDiv
deriving DecidableEq

/-- Python's built-in `round` on an exact rational: round to the nearest
integer, ties going to the even integer.  pandas computes the sample
size as `round(frac * len)`. -/
def pyRound (q : ℚ) : ℤ :=
  let f := ⌊q⌋
  let r := q - (f : ℚ)
  if r < 1/2 then f
  else if 1/2 < r then f + 1
  else if 2 ∣ f then f else f + 1

/-- The order in which a `sample` call visits the positions
`0, …, n-1`: the positions named by the random source first (ignoring
out-of-range and repeated entries), then the remaining positions in
ascending order.  For every `perm` this is a permutation of
`List.range n`, and every permutation arises for some `perm`, so
quantifying over `perm` quantifies over every possible random draw. -/
def selOrder (perm : List Nat) (n : Nat) : List Nat :=
  let good := (perm.filter (fun i => i < n)).dedup
  good ++ (List.range n).filter (fun i => ¬ (i ∈ good))

/-- The `k` rows a `sample` call draws, without replacement, from
`rows`, for the draw order given by `perm`. -/
def sampleRows (perm : List Nat) (rows : Frame) (k : Nat) : Frame :=
  ((selOrder perm rows.length).take k).filterMap (fun i => rows[i]?)

/-- pandas `DataFrame.sample(frac=frac)`: request `round(frac * len)`
rows; a negative count or a count above the population is a
`ValueError` inside pandas. -/
def sampleFrac (perm : List Nat) (rows : Frame) (frac : ℚ) : Except SplitErr Frame :=
  let k : ℤ := pyRound (frac * (rows.length : ℚ))
  if k < 0 then .error .negSample
  else if (rows.length : ℤ) < k then .error .upsample
  else .ok (sampleRows perm rows k.toNat)

/-- pandas `df.drop(other.index)`: remove every row whose index value
appears in the given list. -/
def dropIds (rows : Frame) (ids : List Nat) : Frame :=
  rows.filter (fun r => ¬ (r.id ∈ ids))

/-- `uniqAux seen l`: the elements of `l` not in `seen`, first
occurrences only, in order of first occurrence. -/
def uniqAux {α : Type} [DecidableEq α] (seen : List α) : List α → List α
  | [] => []
  | a :: as => if a ∈ seen then uniqAux seen as else a :: uniqAux (a :: seen) as

/-- pandas `Series.unique()`: the distinct values in order of first
occurrence. -/
def uniq {α : Type} [DecidableEq α] (l : List α) : List α :=
  uniqAux [] l

/-- The body of the per-label loop of `split_to_train_val_test`:

    lbl_train_df        = lbl_df.sample(frac=splits[0])
    lbl_val_and_test_df = lbl_df.drop(lbl_train_df.index)
    lbl_test_df         = lbl_val_and_test_df.sample(frac=splits[2]/(splits[1] + splits[2]))
    lbl_val_df          = lbl_val_and_test_df.drop(lbl_test_df.index)

The float division `splits[2]/(splits[1] + splits[2])` raises
`ZeroDivisionError` when `splits[1] + splits[2]` is zero; it is
evaluated after the train sample and before the test sample. -/
def splitOneLabel (s0 s1 s2 : ℚ) (permT permE : List Nat) (g : Frame) :
    Except SplitErr (Frame × Frame × Frame) :=
  match sampleFrac permT g s0 with
  | .error err => .error err
  | .ok train =>
    let rest := dropIds g (train.map Row.id)
    if s1 + s2 = 0 then .error .zeroDiv
    else
      match sampleFrac permE rest (s2 / (s1 + s2)) with
      | .error err => .error err
      | .ok test => .ok (train, dropIds rest (test.map Row.id), test)

/-- The `for lbl in labels:` loop: process the labels in order, the
`j`-th label consuming the random draws `gen (2*j)` and `gen (2*j+1)`,
appending each label's three parts to the accumulated train, validation
and test frames.  An exception aborts the loop; nothing is returned. -/
def splitLoop (s0 s1 s2 : ℚ) (gen : Nat → List Nat) (df : Frame) :
    List String → Nat → Frame × Frame × Frame → Except SplitErr (Frame × Frame × Frame)
  | [], _, acc => .ok acc
  | c :: cs, j, (t, v, e) =>
    match splitOneLabel s0 s1 s2 (gen (2*j)) (gen (2*j+1))
        (df.filter (fun r => r.label = c)) with
    | .error err => .error err
    | .ok (lt, lv, le) => splitLoop s0 s1 s2 gen df cs (j+1) (t ++ lt, v ++ lv, e ++ le)

/-- `split_to_train_val_test(df, label_column, splits)`:
group the rows by the distinct values of the label column in order of
first occurrence, split each group, and return the three accumulated
frames, each reshuffled by a final `sample(frac=1)`. -/
def splitToTrainValTest (gen : Nat → List Nat) (df : Frame) (s0 s1 s2 : ℚ) :
    Except SplitErr (Frame × Frame × Frame) :=
  let lbls := uniq (df.map Row.label)
  match splitLoop s0 s1 s2 gen df lbls 0 ([], [], []) with
  | .error err => .error err
  | .ok (t, v, e) =>
    let base := 2 * lbls.length
    match sampleFrac (gen base) t 1, sampleFrac (gen (base+1)) v 1,
        sampleFrac (gen (base+2)) e 1 with
    | .ok t', .ok v', .ok e' => .ok (t', v', e')
    | .error err, _, _ => .error err
    | _, .error err, _ => .error err
    | _, _, .error err => .error err

/-- The sizes of the three parts of one label group of `n` rows, as the
code determines them: `round(s0 * n)` rows of train, then
`round((s2/(s1+s2)) * m)` rows of test out of the `m` remaining rows,
and validation is whatever is left. -/
def groupSizes (s0 s1 s2 : ℚ) (n : ℕ) : ℕ × ℕ × ℕ :=
  let k1 := (pyRound (s0 * (n : ℚ))).toNat
  let k2 := (pyRound ((s2 / (s1 + s2)) * ((n - k1 : ℕ) : ℚ))).toNat
  (k1, n - k1 - k2, k2)

/-- The train component of a split result, when the call returned. -/
def trainPart (r : Except SplitErr (Frame × Frame × Frame)) : Option Frame :=
  match r with
  | .ok p => some p.1
  | .error _ => none

/-- The validation component of a split result, when the call returned. -/
def valPart (r : Except SplitErr (Frame × Frame × Frame)) : Option Frame :=
  match r with
  | .ok p => some p.2.1
  | .error _ => none

/-- The test component of a split result, when the call returned. -/
def testPart (r : Except SplitErr (Frame × Frame × Frame)) : Option Frame :=
  match r with
  | .ok p => some p.2.2
  | .error _ => none

/-- The error of a split result, when the call raised. -/
def errPart (r : Except SplitErr (Frame × Frame × Frame)) : Option SplitErr :=
  match r with
  | .ok _ => none
  | .error err => some err

/-- A random source that names no position: every draw takes the lowest
positions first. -/
def gen0 : Nat → List Nat := fun _ => []

/-! ### Arithmetic facts about Python rounding -/

theorem floor_le_pyRound (q : ℚ) : ⌊q⌋ ≤ pyRound q := by
  simp only [pyRound]
  split_ifs <;> omega

theorem pyRound_le_floor_add_half (q : ℚ) : pyRound q ≤ ⌊q + 1/2⌋ := by
  have hf := Int.floor_le q
  simp only [pyRound]
  split_ifs with h1 h2 h3
  · exact Int.floor_le_floor (by linarith)
  · exact Int.le_floor.mpr (by push_cast; linarith)
  · exact Int.le_floor.mpr (by push_cast; linarith)
  · exact Int.le_floor.mpr (by push_cast; linarith)

theorem ceil_sub_half_le_pyRound (q : ℚ) : ⌈q - 1/2⌉ ≤ pyRound q := by
  have hf := Int.lt_floor_add_one q
  simp only [pyRound]
  split_ifs with h1 h2 h3
  · exact Int.ceil_le.mpr (by push_cast; linarith)
  · exact Int.ceil_le.mpr (by push_cast; linarith)
  · exact Int.ceil_le.mpr (by push_cast; linarith)
  · exact Int.ceil_le.mpr (by push_cast; linarith)

theorem pyRound_intCast (z : ℤ) : pyRound (z : ℚ) = z := by
  simp only [pyRound, Int.floor_intCast, sub_self]
  norm_num

theorem pyRound_natCast (n : ℕ) : pyRound (n : ℚ) = n := by
  have := pyRound_intCast (n : ℤ)
  rwa [Int.cast_natCast] at this

theorem pyRound_nonneg {q : ℚ} (h : 0 ≤ q) : 0 ≤ pyRound q :=
  le_trans (Int.floor_nonneg.mpr h) (floor_le_pyRound q)

theorem pyRound_le_int {q : ℚ} {z : ℤ} (h : q ≤ (z : ℚ)) : pyRound q ≤ z := by
  refine le_trans (pyRound_le_floor_add_half q) ?_
  have : ⌊q + 1/2⌋ ≤ ⌊(z : ℚ) + 1/2⌋ := Int.floor_le_floor (by linarith)
  rwa [Int.floor_int_add, show ⌊(1/2 : ℚ)⌋ = 0 by norm_num, add_zero] at this

theorem pyRound_le_of_lt_half {q : ℚ} {z : ℤ} (h : q < (z : ℚ) + 1/2) : pyRound q ≤ z := by
  have h2 : ⌊q + 1/2⌋ < z + 1 := Int.floor_lt.mpr (by push_cast; linarith)
  have := pyRound_le_floor_add_half q
  omega

theorem le_pyRound_of_half_lt {q : ℚ} {z : ℤ} (h : (z : ℚ) - 1/2 < q) : z ≤ pyRound q := by
  have h2 : z - 1 < ⌈q - 1/2⌉ := Int.lt_ceil.mpr (by push_cast; linarith)
  have := ceil_sub_half_le_pyRound q
  omega

/-! ### Generic list lemmas -/

theorem perm_append_filter_not_mem {α : Type} [DecidableEq α] {l r : List α}
    (hl : l.Nodup) (hr : r.Nodup) (hsub : ∀ x ∈ l, x ∈ r) :
    (l ++ r.filter (fun x => ¬ (x ∈ l))).Perm r := by
  rw [List.perm_iff_count]
  intro a
  rw [List.count_append]
  by_cases ha : a ∈ l
  · have hnot : a ∉ r.filter (fun x => ¬ (x ∈ l)) := by
      simp [List.mem_filter, ha]
    rw [List.count_eq_one_of_mem hl ha, List.count_eq_one_of_mem hr (hsub a ha),
      List.count_eq_zero.mpr hnot]
  · rw [List.count_eq_zero.mpr ha, List.count_filter (by simpa using ha), zero_add]

theorem filterMap_getElem?_length {α : Type} {ps : List Nat} {l : List α}
    (h : ∀ i ∈ ps, i < l.length) :
    (ps.filterMap (fun i => l[i]?)).length = ps.length := by
  induction ps with
  | nil => simp
  | cons i ps ih =>
    have hi : i < l.length := h i (by simp)
    have ha : l[i]? = some l[i] := List.getElem?_eq_getElem hi
    simp [List.filterMap_cons, ha, ih (fun j hj => h j (by simp [hj]))]

theorem mem_of_mem_filterMap_getElem? {α : Type} {ps : List Nat} {l : List α} {x : α}
    (h : x ∈ ps.filterMap (fun i => l[i]?)) : x ∈ l := by
  rcases List.mem_filterMap.mp h with ⟨i, _, hi⟩
  rcases List.getElem?_eq_some.mp hi with ⟨hlt, hx⟩
  exact hx ▸ List.getElem_mem hlt

theorem nodup_filterMap_getElem? {α : Type} {ps : List Nat} {l : List α}
    (hps : ps.Nodup) (hlt : ∀ i ∈ ps, i < l.length) (hl : l.Nodup) :
    (ps.filterMap (fun i => l[i]?)).Nodup := by
  induction ps with
  | nil => simp
  | cons i ps ih =>
    have hi : i < l.length := hlt i (by simp)
    have ha : l[i]? = some l[i] := List.getElem?_eq_getElem hi
    have hn := List.nodup_cons.mp hps
    simp only [List.filterMap_cons, ha]
    refine List.nodup_cons.mpr ⟨?_, ih hn.2 (fun j hj => hlt j (by simp [hj]))⟩
    intro hmem
    rcases List.mem_filterMap.mp hmem with ⟨j, hj, hja⟩
    have hij : i = j := List.getElem?_inj hi hl (by rw [ha, hja])
    exact hn.1 (hij ▸ hj)

theorem filterMap_getElem?_range {α : Type} (l : List α) :
    (List.range l.length).filterMap (fun i => l[i]?) = l := by
  induction l with
  | nil => simp
  | cons a l ih =>
    rw [List.length_cons, List.range_succ_eq_map, List.filterMap_cons]
    have h0 : (a :: l)[0]? = some a := List.getElem?_cons_zero
    rw [h0, List.filterMap_map]
    have hcomp : ((fun i => (a :: l)[i]?) ∘ Nat.succ) = fun i => l[i]? := by
      funext i
      simp [Function.comp, List.getElem?_cons_succ]
    rw [hcomp, ih]

/-! ### The draw order is a permutation of the positions -/

theorem selOrder_perm_range (perm : List Nat) (n : Nat) :
    (selOrder perm n).Perm (List.range n) := by
  simp only [selOrder]
  refine perm_append_filter_not_mem (List.nodup_dedup _) (List.nodup_range n) ?_
  intro x hx
  rw [List.mem_range]
  simpa using (List.mem_filter.mp (List.mem_dedup.mp hx)).2

theorem take_selOrder_nodup (perm : List Nat) (n k : Nat) :
    ((selOrder perm n).take k).Nodup :=
  ((selOrder_perm_range perm n).nodup_iff.mpr (List.nodup_range n)).sublist
    (List.take_sublist k _)

theorem take_selOrder_lt (perm : List Nat) (n k : Nat) :
    ∀ i ∈ (selOrder perm n).take k, i < n := by
  intro i hi
  have hmem : i ∈ selOrder perm n := (List.take_sublist k _).subset hi
  exact List.mem_range.mp ((selOrder_perm_range perm n).mem_iff.mp hmem)

theorem length_take_selOrder (perm : List Nat) {n k : Nat} (hk : k ≤ n) :
    ((selOrder perm n).take k).length = k := by
  rw [List.length_take, (selOrder_perm_range perm n).length_eq, List.length_range]
  exact min_eq_left hk

/-! ### What a single sample draw returns -/

theorem sampleRows_length (perm : List Nat) {rows : Frame} {k : Nat} (hk : k ≤ rows.length) :
    (sampleRows perm rows k).length = k := by
  unfold sampleRows
  rw [filterMap_getElem?_length (take_selOrder_lt perm rows.length k)]
  exact length_take_selOrder perm hk

theorem sampleRows_subset (perm : List Nat) (rows : Frame) (k : Nat) :
    ∀ x ∈ sampleRows perm rows k, x ∈ rows :=
  fun _ hx => mem_of_mem_filterMap_getElem? hx

theorem sampleRows_nodup (perm : List Nat) {rows : Frame} (k : Nat) (hrows : rows.Nodup) :
    (sampleRows perm rows k).Nodup :=
  nodup_filterMap_getElem? (take_selOrder_nodup perm rows.length k)
    (take_selOrder_lt perm rows.length k) hrows

theorem sampleRows_all_perm (perm : List Nat) (rows : Frame) :
    (sampleRows perm rows rows.length).Perm rows := by
  unfold sampleRows
  have hlen : (selOrder perm rows.length).length = rows.length :=
    (selOrder_perm_range perm rows.length).length_eq.trans (List.length_range _)
  rw [List.take_of_length_le (le_of_eq hlen)]
  have h1 := (selOrder_perm_range perm rows.length).filterMap (fun i => rows[i]?)
  rwa [filterMap_getElem?_range] at h1

theorem mem_map_id_iff {s rows : Frame} (hid : (rows.map Row.id).Nodup)
    (hs : ∀ x ∈ s, x ∈ rows) {x : Row} (hx : x ∈ rows) :
    x.id ∈ s.map Row.id ↔ x ∈ s := by
  constructor
  · intro h
    rcases List.mem_map.mp h with ⟨y, hy, hyx⟩
    have hyx2 : y = x := List.inj_on_of_nodup_map hid (hs y hy) hx hyx
    exact hyx2 ▸ hy
  · exact fun h => List.mem_map.mpr ⟨x, h, rfl⟩

theorem dropIds_eq_filter_not_mem {s rows : Frame} (hid : (rows.map Row.id).Nodup)
    (hs : ∀ x ∈ s, x ∈ rows) :
    dropIds rows (s.map Row.id) = rows.filter (fun x => ¬ (x ∈ s)) := by
  unfold dropIds
  apply List.filter_congr
  intro x hx
  simp only [decide_eq_decide]
  exact not_congr (mem_map_id_iff hid hs hx)

theorem sample_append_dropIds {rows : Frame} (hid : (rows.map Row.id).Nodup)
    {s : Frame} (hs_sub : ∀ x ∈ s, x ∈ rows) (hs_nodup : s.Nodup) :
    (s ++ dropIds rows (s.map Row.id)).Perm rows := by
  rw [dropIds_eq_filter_not_mem hid hs_sub]
  exact perm_append_filter_not_mem hs_nodup (List.Nodup.of_map _ hid) hs_sub

theorem sampleFrac_ok {frac : ℚ} (h0 : 0 ≤ frac) (h1 : frac ≤ 1)
    (perm : List Nat) (rows : Frame) :
    sampleFrac perm rows frac
      = .ok (sampleRows perm rows (pyRound (frac * (rows.length : ℚ))).toNat) := by
  have hk0 : 0 ≤ pyRound (frac * (rows.length : ℚ)) :=
    pyRound_nonneg (mul_nonneg h0 (Nat.cast_nonneg _))
  have hq : frac * (rows.length : ℚ) ≤ ((rows.length : ℤ) : ℚ) := by
    calc frac * (rows.length : ℚ) ≤ 1 * (rows.length : ℚ) :=
          mul_le_mul_of_nonneg_right h1 (Nat.cast_nonneg _)
    _ = ((rows.length : ℤ) : ℚ) := by push_cast; ring
  have hk1 : pyRound (frac * (rows.length : ℚ)) ≤ (rows.length : ℤ) := pyRound_le_int hq
  simp only [sampleFrac]
  rw [if_neg (not_lt.mpr hk0), if_neg (not_lt.mpr hk1)]

theorem sampleFrac_one (perm : List Nat) (rows : Frame) :
    sampleFrac perm rows 1 = .ok (sampleRows perm rows rows.length) := by
  rw [sampleFrac_ok zero_le_one le_rfl, one_mul, pyRound_natCast, Int.toNat_natCast]

/-! ### pandas unique(): first occurrences of the distinct values -/

theorem mem_uniqAux {α : Type} [DecidableEq α] {a : α} :
    ∀ (l seen : List α), a ∈ uniqAux seen l ↔ (a ∈ l ∧ a ∉ seen)
  | [], seen => by simp [uniqAux]
  | b :: l, seen => by
    by_cases hb : b ∈ seen
    · simp only [uniqAux, if_pos hb]
      rw [mem_uniqAux l seen]
      constructor
      · rintro ⟨h1, h2⟩
        exact ⟨List.mem_cons_of_mem _ h1, h2⟩
      · rintro ⟨h1, h2⟩
        rcases List.mem_cons.mp h1 with rfl | h1
        · exact absurd hb h2
        · exact ⟨h1, h2⟩
    · simp only [uniqAux, if_neg hb]
      rw [List.mem_cons, mem_uniqAux l (b :: seen)]
      constructor
      · rintro (rfl | ⟨h1, h2⟩)
        · exact ⟨List.mem_cons_self a l, hb⟩
        · exact ⟨List.mem_cons_of_mem _ h1, fun hs => h2 (List.mem_cons_of_mem _ hs)⟩
      · rintro ⟨h1, h2⟩
        rcases List.mem_cons.mp h1 with rfl | h1
        · exact Or.inl rfl
        · by_cases hab : a = b
          · exact Or.inl hab
          · exact Or.inr ⟨h1, fun hs => (List.mem_cons.mp hs).elim hab h2⟩

theorem mem_uniq {α : Type} [DecidableEq α] {a : α} {l : List α} :
    a ∈ uniq l ↔ a ∈ l := by
  rw [uniq, mem_uniqAux]
  simp

theorem nodup_uniqAux {α : Type} [DecidableEq α] :
    ∀ (l seen : List α), (uniqAux seen l).Nodup
  | [], _ => by simp [uniqAux]
  | b :: l, seen => by
    by_cases hb : b ∈ seen
    · simp only [uniqAux, if_pos hb]
      exact nodup_uniqAux l seen
    · simp only [uniqAux, if_neg hb]
      refine List.nodup_cons.mpr ⟨?_, nodup_uniqAux l (b :: seen)⟩
      intro hmem
      exact ((mem_uniqAux l (b :: seen)).mp hmem).2 (List.mem_cons_self b seen)

theorem nodup_uniq {α : Type} [DecidableEq α] (l : List α) : (uniq l).Nodup :=
  nodup_uniqAux l []

/-! ### Grouping by a key partitions a list -/

theorem join_filter_key_perm {α κ : Type} [DecidableEq κ] (key : α → κ) :
    ∀ (ks : List κ) (l : List α), ks.Nodup → (∀ x ∈ l, key x ∈ ks) →
      ((ks.map (fun k => l.filter (fun x => key x = k))).join).Perm l
  | [], l, _, hcov => by
    have hnil : l = [] :=
      List.eq_nil_iff_forall_not_mem.mpr (fun x hx => by simpa using hcov x hx)
    simp [hnil]
  | k :: ks, l, hnd, hcov => by
    have hk_not : k ∉ ks := (List.nodup_cons.mp hnd).1
    have hmaps : ∀ k' ∈ ks, l.filter (fun x => key x = k')
        = (l.filter (fun x => ¬ (key x = k))).filter (fun x => key x = k') := by
      intro k' hk'
      have hne : k' ≠ k := fun h => hk_not (h ▸ hk')
      rw [List.filter_filter]
      refine (List.filter_congr ?_).symm.symm
      intro x hx
      by_cases hxk : key x = k'
      · simp [hxk, hne]
      · simp [hxk]
    have hcov' : ∀ x ∈ l.filter (fun x => ¬ (key x = k)), key x ∈ ks := by
      intro x hx
      rcases List.mem_filter.mp hx with ⟨hxl, hxk⟩
      rcases List.mem_cons.mp (hcov x hxl) with h | h
      · exact absurd (by simpa using h) (by simpa using hxk)
      · exact h
    have hjoin : ((ks.map (fun k' => l.filter (fun x => key x = k'))).join).Perm
        (l.filter (fun x => ¬ (key x = k))) := by
      have hmapeq : ks.map (fun k' => l.filter (fun x => key x = k'))
          = ks.map (fun k' => (l.filter (fun x => ¬ (key x = k))).filter
              (fun x => key x = k')) := List.map_congr_left hmaps
      rw [hmapeq]
      exact join_filter_key_perm key ks (l.filter (fun x => ¬ (key x = k)))
        (List.nodup_cons.mp hnd).2 hcov'
    have hstep : ((k :: ks).map (fun k' => l.filter (fun x => key x = k'))).join
        = l.filter (fun x => key x = k)
          ++ (ks.map (fun k' => l.filter (fun x => key x = k'))).join := by
      simp
    rw [hstep]
    refine (List.Perm.append_left _ hjoin).trans ?_
    have hfp := List.filter_append_perm (fun x => key x = k) l
    simp only [decide_not]
    simpa using hfp

/-- Grouping a dataframe by the distinct values of its label column and
concatenating the groups is a permutation of the dataframe. -/
theorem groups_join_perm (df : Frame) :
    (((uniq (df.map Row.label)).map
      (fun c => df.filter (fun r => r.label = c))).join).Perm df :=
  join_filter_key_perm Row.label (uniq (df.map Row.label)) df
    (nodup_uniq _) (fun x hx => mem_uniq.mpr (List.mem_map.mpr ⟨x, hx, rfl⟩))

/-! ### What one iteration of the label loop produces -/

theorem groupSizes_fst (s0 s1 s2 : ℚ) (n : ℕ) :
    (groupSizes s0 s1 s2 n).1 = (pyRound (s0 * (n : ℚ))).toNat := rfl

theorem groupSizes_snd (s0 s1 s2 : ℚ) (n : ℕ) :
    (groupSizes s0 s1 s2 n).2.1
      = n - (pyRound (s0 * (n : ℚ))).toNat
        - (pyRound ((s2 / (s1 + s2))
            * ((n - (pyRound (s0 * (n : ℚ))).toNat : ℕ) : ℚ))).toNat := rfl

theorem groupSizes_thd (s0 s1 s2 : ℚ) (n : ℕ) :
    (groupSizes s0 s1 s2 n).2.2
      = (pyRound ((s2 / (s1 + s2))
          * ((n - (pyRound (s0 * (n : ℚ))).toNat : ℕ) : ℚ))).toNat := rfl

set_option maxHeartbeats 1600000 in
theorem splitOneLabel_spec {s0 s1 s2 : ℚ} (h00 : 0 ≤ s0) (h01 : s0 ≤ 1)
    (h20 : 0 ≤ s2) (h21 : s2 ≤ s1 + s2) (hpos : 0 < s1 + s2)
    (permT permE : List Nat) {g : Frame} (hid : (g.map Row.id).Nodup) :
    ∃ T V E, splitOneLabel s0 s1 s2 permT permE g = .ok (T, V, E)
      ∧ (T ++ V ++ E).Perm g
      ∧ T.length = (groupSizes s0 s1 s2 g.length).1
      ∧ V.length = (groupSizes s0 s1 s2 g.length).2.1
      ∧ E.length = (groupSizes s0 s1 s2 g.length).2.2 := by
  have hfrac0 : 0 ≤ s2 / (s1 + s2) := div_nonneg h20 (le_of_lt hpos)
  have hfrac1 : s2 / (s1 + s2) ≤ 1 := by
    rw [div_le_one hpos]
    exact h21
  have hne : s1 + s2 ≠ 0 := ne_of_gt hpos
  have hg_nodup : g.Nodup := List.Nodup.of_map _ hid
  set k1 := (pyRound (s0 * (g.length : ℚ))).toNat with hk1def
  have hk1le : k1 ≤ g.length := by
    refine Int.toNat_le.mpr (pyRound_le_int ?_)
    calc s0 * (g.length : ℚ) ≤ 1 * (g.length : ℚ) :=
          mul_le_mul_of_nonneg_right h01 (Nat.cast_nonneg _)
    _ = ((g.length : ℤ) : ℚ) := by push_cast; ring
  set T := sampleRows permT g k1 with hTdef
  have hT_len : T.length = k1 := sampleRows_length permT hk1le
  have hT_sub : ∀ x ∈ T, x ∈ g := sampleRows_subset permT g k1
  have hT_nodup : T.Nodup := sampleRows_nodup permT k1 hg_nodup
  set rest := dropIds g (T.map Row.id) with hrestdef
  have hTrest : (T ++ rest).Perm g := sample_append_dropIds hid hT_sub hT_nodup
  have hrest_len : rest.length = g.length - k1 := by
    have hlen := hTrest.length_eq
    rw [List.length_append, hT_len] at hlen
    omega
  have hrest_sublist : List.Sublist rest g := by
    rw [hrestdef]
    unfold dropIds
    exact List.filter_sublist g
  have hrest_id_nodup : (rest.map Row.id).Nodup :=
    List.Sublist.nodup (List.Sublist.map Row.id hrest_sublist) hid
  set k2 := (pyRound ((s2 / (s1 + s2)) * (rest.length : ℚ))).toNat with hk2def
  have hk2le : k2 ≤ rest.length := by
    refine Int.toNat_le.mpr (pyRound_le_int ?_)
    calc (s2 / (s1 + s2)) * (rest.length : ℚ) ≤ 1 * (rest.length : ℚ) :=
          mul_le_mul_of_nonneg_right hfrac1 (Nat.cast_nonneg _)
    _ = ((rest.length : ℤ) : ℚ) := by push_cast; ring
  set E := sampleRows permE rest k2 with hEdef
  have hE_len : E.length = k2 := sampleRows_length permE hk2le
  have hE_sub : ∀ x ∈ E, x ∈ rest := sampleRows_subset permE rest k2
  have hE_nodup : E.Nodup := sampleRows_nodup permE k2 (List.Nodup.of_map _ hrest_id_nodup)
  set V := dropIds rest (E.map Row.id) with hVdef
  have hEV : (E ++ V).Perm rest := sample_append_dropIds hrest_id_nodup hE_sub hE_nodup
  have hV_len : V.length = rest.length - k2 := by
    have hlen := hEV.length_eq
    rw [List.length_append, hE_len] at hlen
    omega
  refine ⟨T, V, E, ?_, ?_, ?_, ?_, ?_⟩
  · have e1 : sampleFrac permT g s0 = .ok T := by
      rw [sampleFrac_ok h00 h01, ← hk1def, ← hTdef]
    have e2 : sampleFrac permE rest (s2 / (s1 + s2)) = .ok E := by
      rw [sampleFrac_ok hfrac0 hfrac1, ← hk2def, ← hEdef]
    simp only [splitOneLabel, e1, ← hrestdef, if_neg hne, e2, ← hVdef]
  · have hVE : (V ++ E).Perm rest := (List.perm_append_comm).trans hEV
    have hassoc : T ++ V ++ E = T ++ (V ++ E) := List.append_assoc T V E
    rw [hassoc]
    exact (List.Perm.append_left T hVE).trans hTrest
  · rw [groupSizes_fst, hT_len]
  · rw [groupSizes_snd, ← hk1def, ← hrest_len, ← hk2def]
    exact hV_len
  · rw [groupSizes_thd, ← hk1def, ← hrest_len, ← hk2def]
    exact hE_len

/-- When the validation and test ratios sum to zero, the loop body
raises the division error, whatever the group is. -/
theorem splitOneLabel_zeroDiv {s0 s1 s2 : ℚ} (h00 : 0 ≤ s0) (h01 : s0 ≤ 1)
    (hz : s1 + s2 = 0) (permT permE : List Nat) (g : Frame) :
    splitOneLabel s0 s1 s2 permT permE g = .error .zeroDiv := by
  simp only [splitOneLabel]
  rw [sampleFrac_ok h00 h01]
  simp [hz]

/-! ### What the whole label loop produces -/

theorem splitLoop_spec {s0 s1 s2 : ℚ} (h00 : 0 ≤ s0) (h01 : s0 ≤ 1)
    (h20 : 0 ≤ s2) (h21 : s2 ≤ s1 + s2) (hpos : 0 < s1 + s2)
    (gen : Nat → List Nat) (df : Frame) :
    ∀ (cs : List String) (j : Nat) (t0 v0 e0 : Frame),
      cs.Nodup →
      (∀ c ∈ cs, ((df.filter (fun r => r.label = c)).map Row.id).Nodup) →
      ∃ T V E,
        splitLoop s0 s1 s2 gen df cs j (t0, v0, e0) = .ok (t0 ++ T, v0 ++ V, e0 ++ E)
        ∧ (T ++ V ++ E).Perm
            ((cs.map (fun c => df.filter (fun r => r.label = c))).join)
        ∧ ∀ c ∈ cs,
            (T.filter (fun r => r.label = c)).length
              = (groupSizes s0 s1 s2 (df.filter (fun r => r.label = c)).length).1
          ∧ (V.filter (fun r => r.label = c)).length
              = (groupSizes s0 s1 s2 (df.filter (fun r => r.label = c)).length).2.1
          ∧ (E.filter (fun r => r.label = c)).length
              = (groupSizes s0 s1 s2 (df.filter (fun r => r.label = c)).length).2.2
  | [], j, t0, v0, e0, _, _ => ⟨[], [], [], by simp [splitLoop], by simp, by simp⟩
  | c :: cs, j, t0, v0, e0, hnd, hgid => by
    have hc_not : c ∉ cs := (List.nodup_cons.mp hnd).1
    obtain ⟨lt, lv, le, he, hperm, hl1, hl2, hl3⟩ :=
      splitOneLabel_spec h00 h01 h20 h21 hpos (gen (2*j)) (gen (2*j+1))
        (hgid c (List.mem_cons_self c cs))
    obtain ⟨T', V', E', he', hperm', hcounts'⟩ :=
      splitLoop_spec h00 h01 h20 h21 hpos gen df cs (j+1) (t0 ++ lt) (v0 ++ lv) (e0 ++ le)
        (List.nodup_cons.mp hnd).2 (fun c' hc' => hgid c' (List.mem_cons_of_mem _ hc'))
    have hglab : ∀ x ∈ df.filter (fun r => r.label = c), x.label = c := by
      intro x hx
      simpa using (List.mem_filter.mp hx).2
    have hmem3 : ∀ x, (x ∈ lt ∨ x ∈ lv ∨ x ∈ le) → x.label = c := by
      intro x hx
      refine hglab x (hperm.mem_iff.mp ?_)
      simp only [List.mem_append]
      tauto
    have htail : ∀ x, (x ∈ T' ∨ x ∈ V' ∨ x ∈ E') → x.label ∈ cs := by
      intro x hx
      have hxj : x ∈ ((cs.map (fun c' => df.filter (fun r => r.label = c'))).join) := by
        refine hperm'.mem_iff.mp ?_
        simp only [List.mem_append]
        tauto
      rcases List.mem_join.mp hxj with ⟨gl, hgl, hxgl⟩
      rcases List.mem_map.mp hgl with ⟨c'', hc'', rfl⟩
      have hxl : x.label = c'' := by
        simpa using (List.mem_filter.mp hxgl).2
      exact hxl ▸ hc''
    refine ⟨lt ++ T', lv ++ V', le ++ E', ?_, ?_, ?_⟩
    · simp only [splitLoop, he]
      rw [he']
      simp [List.append_assoc]
    · have hjoin : (((c :: cs).map (fun c' => df.filter (fun r => r.label = c'))).join)
          = df.filter (fun r => r.label = c)
            ++ ((cs.map (fun c' => df.filter (fun r => r.label = c'))).join) := by
        simp
      rw [hjoin, ← Multiset.coe_eq_coe]
      have m1 := Multiset.coe_eq_coe.mpr hperm
      have m2 := Multiset.coe_eq_coe.mpr hperm'
      simp only [← Multiset.coe_add] at m1 m2 ⊢
      rw [← m1, ← m2]
      abel
    · intro c' hc'
      rcases List.mem_cons.mp hc' with rfl | hc'
      · have hfT : (lt ++ T').filter (fun r => r.label = c') = lt := by
          rw [List.filter_append]
          have h1 : lt.filter (fun r => r.label = c') = lt :=
            List.filter_eq_self.mpr (fun x hx => by
              simp [hmem3 x (Or.inl hx)])
          have h2 : T'.filter (fun r => r.label = c') = [] :=
            List.filter_eq_nil.mpr (fun x hx => by
              have := htail x (Or.inl hx)
              simp only [decide_eq_true_eq]
              intro hlab
              exact hc_not (hlab ▸ this))
          rw [h1, h2, List.append_nil]
        have hfV : (lv ++ V').filter (fun r => r.label = c') = lv := by
          rw [List.filter_append]
          have h1 : lv.filter (fun r => r.label = c') = lv :=
            List.filter_eq_self.mpr (fun x hx => by
              simp [hmem3 x (Or.inr (Or.inl hx))])
          have h2 : V'.filter (fun r => r.label = c') = [] :=
            List.filter_eq_nil.mpr (fun x hx => by
              have := htail x (Or.inr (Or.inl hx))
              simp only [decide_eq_true_eq]
              intro hlab
              exact hc_not (hlab ▸ this))
          rw [h1, h2, List.append_nil]
        have hfE : (le ++ E').filter (fun r => r.label = c') = le := by
          rw [List.filter_append]
          have h1 : le.filter (fun r => r.label = c') = le :=
            List.filter_eq_self.mpr (fun x hx => by
              simp [hmem3 x (Or.inr (Or.inr hx))])
          have h2 : E'.filter (fun r => r.label = c') = [] :=
            List.filter_eq_nil.mpr (fun x hx => by
              have := htail x (Or.inr (Or.inr hx))
              simp only [decide_eq_true_eq]
              intro hlab
              exact hc_not (hlab ▸ this))
          rw [h1, h2, List.append_nil]
        exact ⟨by rw [hfT]; exact hl1, by rw [hfV]; exact hl2, by rw [hfE]; exact hl3⟩
      · have hcc' : c ≠ c' := fun h => hc_not (h ▸ hc')
        have hhead : ∀ (l : Frame), (∀ x ∈ l, x.label = c) →
            l.filter (fun r => r.label = c') = [] := by
          intro l hl
          refine List.filter_eq_nil.mpr (fun x hx => ?_)
          simp only [decide_eq_true_eq]
          intro hlab
          exact hcc' ((hl x hx) ▸ hlab)
        obtain ⟨hc1, hc2, hc3⟩ := hcounts' c' hc'
        refine ⟨?_, ?_, ?_⟩
        · rw [List.filter_append, hhead lt (fun x hx => hmem3 x (Or.inl hx)),
            List.nil_append]
          exact hc1
        · rw [List.filter_append, hhead lv (fun x hx => hmem3 x (Or.inr (Or.inl hx))),
            List.nil_append]
          exact hc2
        · rw [List.filter_append, hhead le (fun x hx => hmem3 x (Or.inr (Or.inr hx))),
            List.nil_append]
          exact hc3

/-! ### What the whole function returns on ratios it can process -/

theorem pyRound_zero : pyRound 0 = 0 := by
  simpa using pyRound_intCast 0

theorem groupSizes_zero (s0 s1 s2 : ℚ) : groupSizes s0 s1 s2 0 = (0, 0, 0) := by
  simp [groupSizes, pyRound_zero]

theorem splitToTrainValTest_spec {s0 s1 s2 : ℚ} (h00 : 0 ≤ s0) (h01 : s0 ≤ 1)
    (h20 : 0 ≤ s2) (h21 : s2 ≤ s1 + s2) (hpos : 0 < s1 + s2)
    (gen : Nat → List Nat) {df : Frame} (hid : (df.map Row.id).Nodup) :
    ∃ t v e, splitToTrainValTest gen df s0 s1 s2 = .ok (t, v, e)
      ∧ (t ++ v ++ e).Perm df
      ∧ ∀ c : String,
          (t.filter (fun r => r.label = c)).length
            = (groupSizes s0 s1 s2 (df.filter (fun r => r.label = c)).length).1
        ∧ (v.filter (fun r => r.label = c)).length
            = (groupSizes s0 s1 s2 (df.filter (fun r => r.label = c)).length).2.1
        ∧ (e.filter (fun r => r.label = c)).length
            = (groupSizes s0 s1 s2 (df.filter (fun r => r.label = c)).length).2.2 := by
  set lbls := uniq (df.map Row.label) with hlbls
  obtain ⟨T, V, E, he, hperm, hcounts⟩ :=
    splitLoop_spec h00 h01 h20 h21 hpos gen df lbls 0 [] [] [] (nodup_uniq _)
      (fun c _ => List.Sublist.nodup (List.Sublist.map Row.id (List.filter_sublist df)) hid)
  rw [List.nil_append, List.nil_append, List.nil_append] at he
  have hTdf : (T ++ V ++ E).Perm df := hperm.trans (hlbls ▸ groups_join_perm df)
  set t := sampleRows (gen (2 * lbls.length)) T T.length with htdef
  set v := sampleRows (gen (2 * lbls.length + 1)) V V.length with hvdef
  set e := sampleRows (gen (2 * lbls.length + 2)) E E.length with hedef
  have ht : t.Perm T := sampleRows_all_perm _ _
  have hv : v.Perm V := sampleRows_all_perm _ _
  have hee : e.Perm E := sampleRows_all_perm _ _
  have hperm_out : (t ++ v ++ e).Perm df := ((ht.append hv).append hee).trans hTdf
  refine ⟨t, v, e, ?_, hperm_out, ?_⟩
  · simp only [splitToTrainValTest, ← hlbls, he, sampleFrac_one, ← htdef, ← hvdef, ← hedef]
  · intro c
    have hft : (t.filter (fun r => r.label = c)).length
        = (T.filter (fun r => r.label = c)).length := ((ht.filter _)).length_eq
    have hfv : (v.filter (fun r => r.label = c)).length
        = (V.filter (fun r => r.label = c)).length := ((hv.filter _)).length_eq
    have hfe : (e.filter (fun r => r.label = c)).length
        = (E.filter (fun r => r.label = c)).length := ((hee.filter _)).length_eq
    by_cases hc : c ∈ lbls
    · obtain ⟨h1, h2, h3⟩ := hcounts c hc
      exact ⟨hft.trans h1, hfv.trans h2, hfe.trans h3⟩
    · have hgnil : df.filter (fun r => r.label = c) = [] := by
        refine List.filter_eq_nil.mpr (fun x hx => ?_)
        simp only [decide_eq_true_eq]
        intro hlab
        exact hc (hlbls ▸ mem_uniq.mpr (List.mem_map.mpr ⟨x, hx, hlab⟩))
      have hout_nil : ∀ l : Frame, (∀ x ∈ l, x ∈ df) →
          l.filter (fun r => r.label = c) = [] := by
        intro l hl
        refine List.filter_eq_nil.mpr (fun x hx => ?_)
        simp only [decide_eq_true_eq]
        intro hlab
        have hxdf : x ∈ df := hl x hx
        have : x ∈ df.filter (fun r => r.label = c) :=
          List.mem_filter.mpr ⟨hxdf, by simpa using hlab⟩
        rw [hgnil] at this
        exact absurd this (List.not_mem_nil x)
      have hsub : ∀ x ∈ T ++ V ++ E, x ∈ df := fun x hx => hTdf.mem_iff.mp hx
      have hTnil : T.filter (fun r => r.label = c) = [] :=
        hout_nil T (fun x hx => hsub x (by simp [List.mem_append, hx]))
      have hVnil : V.filter (fun r => r.label = c) = [] :=
        hout_nil V (fun x hx => hsub x (by simp [List.mem_append, hx]))
      have hEnil : E.filter (fun r => r.label = c) = [] :=
        hout_nil E (fun x hx => hsub x (by simp [List.mem_append, hx]))
      rw [hgnil]
      simp only [List.length_nil, groupSizes_zero]
      exact ⟨by rw [hft, hTnil]; rfl, by rw [hfv, hVnil]; rfl, by rw [hfe, hEnil]; rfl⟩

/-! ### Claim theorems -/

/-- Claim C1: for every non-empty dataset with distinct identifiers and
every valid ratio triple (entries nonnegative, summing to 1, with a
positive validation+test share — a triple with `s1 + s2 = 0` raises the
division error of claim C9 instead), the call returns, and the three
returned collections partition the input by identifier: the output
identifiers are a permutation of the input identifiers, every input
identifier occurs exactly once across the three outputs, and the three
outputs are pairwise disjoint by identifier. -/
theorem claim_C1_partition (gen : Nat → List Nat) (df : Frame) (s0 s1 s2 : ℚ)
    (hne : df ≠ []) (hid : (df.map Row.id).Nodup)
    (h0 : 0 ≤ s0) (h1 : 0 ≤ s1) (h2 : 0 ≤ s2)
    (hsum : s0 + s1 + s2 = 1) (hvt : 0 < s1 + s2) :
    ∃ t v e, splitToTrainValTest gen df s0 s1 s2 = .ok (t, v, e)
      ∧ ((t ++ v ++ e).map Row.id).Perm (df.map Row.id)
      ∧ (∀ i ∈ df.map Row.id, ((t ++ v ++ e).map Row.id).count i = 1)
      ∧ (∀ i, ¬ (i ∈ t.map Row.id ∧ i ∈ v.map Row.id))
      ∧ (∀ i, ¬ (i ∈ t.map Row.id ∧ i ∈ e.map Row.id))
      ∧ (∀ i, ¬ (i ∈ v.map Row.id ∧ i ∈ e.map Row.id)) := by
  obtain ⟨t, v, e, he, hperm, -⟩ :=
    splitToTrainValTest_spec h0 (by linarith) h2 (by linarith) hvt gen hid
  have hpermid : ((t ++ v ++ e).map Row.id).Perm (df.map Row.id) := hperm.map Row.id
  have hnodout : ((t ++ v ++ e).map Row.id).Nodup := hpermid.nodup_iff.mpr hid
  rw [List.map_append, List.map_append] at hnodout
  obtain ⟨hAB, hC, hABC⟩ := List.nodup_append.mp hnodout
  obtain ⟨hA, hB, hAvB⟩ := List.nodup_append.mp hAB
  refine ⟨t, v, e, he, hpermid, ?_, ?_, ?_, ?_⟩
  · intro i hi
    rw [hpermid.count_eq, List.count_eq_one_of_mem hid hi]
  · rintro i ⟨hit, hiv⟩
    exact hAvB hit hiv
  · rintro i ⟨hit, hie⟩
    exact hABC (List.mem_append.mpr (Or.inl hit)) hie
  · rintro i ⟨hiv, hie⟩
    exact hABC (List.mem_append.mpr (Or.inr hiv)) hie

/-- Claim C8: the embedded function is pure: it does not modify its
input (which remains the same value), and, on ratios it can process,
every row of every output collection is literally a row of the input —
identifier, label and payload unchanged — and the concatenated outputs
are a permutation of the input rows, so no row data is invented,
altered or duplicated. -/
theorem claim_C8_no_side_effects (gen : Nat → List Nat) (df : Frame) (s0 s1 s2 : ℚ)
    (hid : (df.map Row.id).Nodup)
    (h0 : 0 ≤ s0) (h1 : 0 ≤ s1) (h2 : 0 ≤ s2)
    (hsum : s0 + s1 + s2 = 1) (hvt : 0 < s1 + s2) :
    ∃ t v e, splitToTrainValTest gen df s0 s1 s2 = .ok (t, v, e)
      ∧ (t ++ v ++ e).Perm df
      ∧ (∀ r, r ∈ t ++ v ++ e → r ∈ df) := by
  obtain ⟨t, v, e, he, hperm, -⟩ :=
    splitToTrainValTest_spec h0 (by linarith) h2 (by linarith) hvt gen hid
  exact ⟨t, v, e, he, hperm, fun r hr => hperm.mem_iff.mp hr⟩

/-- Claim C3: on every label group with distinct identifiers, the loop
body draws the train part as a without-replacement sample of
`round(train_ratio * group size)` rows of the group, then draws the
test part from the remaining rows as a without-replacement sample of
fraction `test_ratio / (val_ratio + test_ratio)` of them, and the
validation part is exactly the leftover of the remainder after the test
draw — no rounding is applied to it, so rounding is absorbed by the
subset computed last. -/
theorem claim_C3_group_algorithm (s0 s1 s2 : ℚ) (permT permE : List Nat) (g : Frame)
    (hid : (g.map Row.id).Nodup)
    (h00 : 0 ≤ s0) (h01 : s0 ≤ 1) (h10 : 0 ≤ s1) (h20 : 0 ≤ s2) (hpos : 0 < s1 + s2) :
    ∃ T E, splitOneLabel s0 s1 s2 permT permE g
        = .ok (T, dropIds (dropIds g (T.map Row.id)) (E.map Row.id), E)
      ∧ T.length = (pyRound (s0 * (g.length : ℚ))).toNat
      ∧ (T ++ dropIds g (T.map Row.id)).Perm g
      ∧ E.length = (pyRound ((s2 / (s1 + s2))
          * (((dropIds g (T.map Row.id)).length : ℕ) : ℚ))).toNat
      ∧ (E ++ dropIds (dropIds g (T.map Row.id)) (E.map Row.id)).Perm
          (dropIds g (T.map Row.id)) := by
  have h21 : s2 ≤ s1 + s2 := by linarith
  have hfrac0 : 0 ≤ s2 / (s1 + s2) := div_nonneg h20 (le_of_lt hpos)
  have hfrac1 : s2 / (s1 + s2) ≤ 1 := by
    rw [div_le_one hpos]
    exact h21
  have hne : s1 + s2 ≠ 0 := ne_of_gt hpos
  have hg_nodup : g.Nodup := List.Nodup.of_map _ hid
  set k1 := (pyRound (s0 * (g.length : ℚ))).toNat with hk1def
  have hk1le : k1 ≤ g.length := by
    refine Int.toNat_le.mpr (pyRound_le_int ?_)
    calc s0 * (g.length : ℚ) ≤ 1 * (g.length : ℚ) :=
          mul_le_mul_of_nonneg_right h01 (Nat.cast_nonneg _)
    _ = ((g.length : ℤ) : ℚ) := by push_cast; ring
  set T := sampleRows permT g k1 with hTdef
  have hT_len : T.length = k1 := sampleRows_length permT hk1le
  have hT_sub := sampleRows_subset permT g k1
  have hT_nodup : T.Nodup := sampleRows_nodup permT k1 hg_nodup
  set rest := dropIds g (T.map Row.id) with hrestdef
  have hTrest : (T ++ rest).Perm g := sample_append_dropIds hid hT_sub hT_nodup
  have hrest_sublist : List.Sublist rest g := by
    rw [hrestdef]
    unfold dropIds
    exact List.filter_sublist g
  have hrest_id_nodup : (rest.map Row.id).Nodup :=
    List.Sublist.nodup (List.Sublist.map Row.id hrest_sublist) hid
  set k2 := (pyRound ((s2 / (s1 + s2)) * (rest.length : ℚ))).toNat with hk2def
  have hk2le : k2 ≤ rest.length := by
    refine Int.toNat_le.mpr (pyRound_le_int ?_)
    calc (s2 / (s1 + s2)) * (rest.length : ℚ) ≤ 1 * (rest.length : ℚ) :=
          mul_le_mul_of_nonneg_right hfrac1 (Nat.cast_nonneg _)
    _ = ((rest.length : ℤ) : ℚ) := by push_cast; ring
  set E := sampleRows permE rest k2 with hEdef
  have hE_len : E.length = k2 := sampleRows_length permE hk2le
  have hE_sub := sampleRows_subset permE rest k2
  have hE_nodup : E.Nodup := sampleRows_nodup permE k2 (List.Nodup.of_map _ hrest_id_nodup)
  have hEV : (E ++ dropIds rest (E.map Row.id)).Perm rest :=
    sample_append_dropIds hrest_id_nodup hE_sub hE_nodup
  refine ⟨T, E, ?_, hT_len, hTrest, hE_len, hEV⟩
  have e1 : sampleFrac permT g s0 = .ok T := by
    rw [sampleFrac_ok h00 h01, ← hk1def, ← hTdef]
  have e2 : sampleFrac permE rest (s2 / (s1 + s2)) = .ok E := by
    rw [sampleFrac_ok hfrac0 hfrac1, ← hk2def, ← hEdef]
  simp only [splitOneLabel, e1, ← hrestdef, if_neg hne, e2]

theorem uniq_cons {α : Type} [DecidableEq α] (a : α) (l : List α) :
    uniq (a :: l) = a :: uniqAux [a] l := by
  simp [uniq, uniqAux]

/-- Claim C9: on every non-empty dataset, calling with the ratio triple
(1, 0, 0) — nonnegative entries summing to 1 — reaches the unguarded
division `splits[2]/(splits[1] + splits[2])` with zero divisor in the
first loop iteration and raises the division error; no train/val/test
result is returned. -/
theorem claim_C9_zero_ratio_division (gen : Nat → List Nat) (df : Frame)
    (hne : df ≠ []) :
    errPart (splitToTrainValTest gen df 1 0 0) = some .zeroDiv := by
  obtain ⟨r, df', rfl⟩ : ∃ r df', df = r :: df' := by
    cases df with
    | nil => exact absurd rfl hne
    | cons r df' => exact ⟨r, df', rfl⟩
  have hz : (0 : ℚ) + 0 = 0 := by norm_num
  simp only [splitToTrainValTest, List.map_cons, uniq_cons, splitLoop,
    splitOneLabel_zeroDiv zero_le_one le_rfl hz, errPart]

theorem sampleRows_zero (perm : List Nat) (rows : Frame) : sampleRows perm rows 0 = [] := rfl

/-- On a dataset with zero rows the function performs no validation at
all: the label loop iterates over zero distinct labels and three empty
frames are returned, whatever the ratios are. -/
theorem split_nil (gen : Nat → List Nat) (s0 s1 s2 : ℚ) :
    splitToTrainValTest gen [] s0 s1 s2 = .ok ([], [], []) := by
  simp only [splitToTrainValTest, List.map_nil, uniq, uniqAux, splitLoop,
    sampleFrac_one, List.length_nil, sampleRows_zero]

/-- Claim C10: for an input dataframe with the label column but zero
rows, the call returns normally with three empty collections — no
exception is raised and no validation is performed, because the
per-label loop iterates over zero distinct labels. -/
theorem claim_C10_empty_frame_returns (gen : Nat → List Nat) (s0 s1 s2 : ℚ) :
    splitToTrainValTest gen [] s0 s1 s2 = .ok ([], [], []) :=
  split_nil gen s0 s1 s2

/-- Claim C5, counterexample: a dataset with zero items does not fail:
the call with the default ratios returns without any error, refuting
the claimed `EmptyDataset` failure. -/
theorem claim_C5_cex_no_empty_error :
    errPart (splitToTrainValTest gen0 [] (7/10) (2/10) (1/10)) = none := by
  rw [split_nil]
  rfl

/-- Claim C5, amended: calling on a dataset with zero items performs no
validation and returns three empty collections instead of failing. -/
theorem claim_C5_amended_empty_ok (gen : Nat → List Nat) :
    splitToTrainValTest gen [] (7/10) (2/10) (1/10) = .ok ([], [], []) :=
  split_nil gen (7/10) (2/10) (1/10)

/-! ### Concrete inputs -/

/-- A random source that puts position 1 first in every draw. -/
def gen1 : Nat → List Nat := fun _ => [1]

/-- Two rows of one label, distinct identifiers. -/
def dfPair : Frame := [⟨0, "A", "x"⟩, ⟨1, "A", "y"⟩]

theorem dfPair_eval_gen0 :
    trainPart (splitToTrainValTest gen0 dfPair (1/2) (1/4) (1/4))
      = some [⟨0, "A", "x"⟩] := by
  norm_num [splitToTrainValTest, splitLoop, splitOneLabel, sampleFrac, sampleRows,
    selOrder, dropIds, uniq, uniqAux, pyRound, trainPart, gen0, dfPair,
    List.range_succ, Int.toNat, List.filterMap_cons]

theorem dfPair_eval_gen1 :
    trainPart (splitToTrainValTest gen1 dfPair (1/2) (1/4) (1/4))
      = some [⟨1, "A", "y"⟩] := by
  norm_num [splitToTrainValTest, splitLoop, splitOneLabel, sampleFrac, sampleRows,
    selOrder, dropIds, uniq, uniqAux, pyRound, trainPart, gen1, dfPair,
    List.range_succ, Int.toNat, List.filterMap_cons]

/-- Claim C7: the code passes no seed or generator to its sampling calls;
the result depends on the state of the ambient (process-global) random
source, here made explicit: two calls on the same dataset, label field
and ratios but under different ambient generator states return
different train subsets, so no per-call seed exists that the caller
could inject through the function's interface. -/
theorem claim_C7_depends_on_global_rng :
    trainPart (splitToTrainValTest gen0 dfPair (1/2) (1/4) (1/4))
      ≠ trainPart (splitToTrainValTest gen1 dfPair (1/2) (1/4) (1/4)) := by
  rw [dfPair_eval_gen0, dfPair_eval_gen1]
  simp

/-- Three rows of one label, distinct identifiers. -/
def dfA3 : Frame := [⟨0, "A", "a0"⟩, ⟨1, "A", "a1"⟩, ⟨2, "A", "a2"⟩]

/-- Six rows of one label, distinct identifiers. -/
def dfA6 : Frame := [⟨0, "A", "a0"⟩, ⟨1, "A", "a1"⟩, ⟨2, "A", "a2"⟩,
  ⟨3, "A", "a3"⟩, ⟨4, "A", "a4"⟩, ⟨5, "A", "a5"⟩]

/-- Claim C2, counterexample: a class of exactly 3 items with the strictly
positive ratio triple (0.7, 0.2, 0.1) summing to 1 produces an empty
test subset: `round(0.7*3) = 2` rows go to train, and of the single
remaining row `round(1/3 * 1) = 0` rows go to test, so the test output
contains no item of the class, refuting the claim at this input. -/
theorem claim_C2_cex_three_item_class :
    (dfA3.filter (fun r => r.label = "A")).length = 3
    ∧ ((0:ℚ) < 7/10 ∧ (0:ℚ) < 2/10 ∧ (0:ℚ) < 1/10
        ∧ (7/10 : ℚ) + 2/10 + 1/10 = 1)
    ∧ testPart (splitToTrainValTest gen0 dfA3 (7/10) (2/10) (1/10)) = some [] := by
  refine ⟨by norm_num [dfA3], by norm_num, ?_⟩
  norm_num [splitToTrainValTest, splitLoop, splitOneLabel, sampleFrac, sampleRows,
    selOrder, dropIds, uniq, uniqAux, pyRound, testPart, gen0, dfA3,
    List.range_succ, Int.toNat, List.filterMap_cons]

/-- With the default ratios (0.7, 0.2, 0.1), a label group of at least
6 rows yields a positive train, validation and test size. -/
theorem groupSizes_default_pos {n : ℕ} (h6 : 6 ≤ n) :
    1 ≤ (groupSizes (7/10) (2/10) (1/10) n).1
    ∧ 1 ≤ (groupSizes (7/10) (2/10) (1/10) n).2.1
    ∧ 1 ≤ (groupSizes (7/10) (2/10) (1/10) n).2.2 := by
  have hn : (6:ℚ) ≤ (n:ℚ) := by exact_mod_cast h6
  set K1 := pyRound ((7/10 : ℚ) * (n:ℚ)) with hK1
  have hk1_lo : (1:ℤ) ≤ K1 := le_pyRound_of_half_lt (by push_cast; linarith)
  have hk1_hi : K1 ≤ (n:ℤ) - 2 := pyRound_le_of_lt_half (by push_cast; linarith)
  have hm2 : 2 ≤ n - K1.toNat := by omega
  set m := n - K1.toNat with hm
  have hmq : (2:ℚ) ≤ (m:ℚ) := by exact_mod_cast hm2
  have hfrac : ((1:ℚ)/10) / (2/10 + 1/10) = 1/3 := by norm_num
  set K2 := pyRound (((1:ℚ)/10) / (2/10 + 1/10) * (m:ℚ)) with hK2
  have hk2_lo : (1:ℤ) ≤ K2 := by
    apply le_pyRound_of_half_lt
    rw [hfrac]
    push_cast
    linarith
  have hk2_hi : K2 ≤ (m:ℤ) - 1 := by
    apply pyRound_le_of_lt_half
    rw [hfrac]
    push_cast
    linarith
  refine ⟨?_, ?_, ?_⟩
  · rw [groupSizes_fst, ← hK1]
    omega
  · rw [groupSizes_snd, ← hK1, ← hm, ← hK2]
    omega
  · rw [groupSizes_thd, ← hK1, ← hm, ← hK2]
    omega

/-- Claim C2, amended: with the function's default ratios (0.7, 0.2, 0.1),
every class label with at least 6 items in a dataset with distinct
identifiers appears in all three outputs; classes of 3 to 5 items can
leave the test output empty for that class (see the counterexample), so
the threshold 3 of the original claim must be raised, and for other
positive ratio triples the threshold depends on the ratios. -/
theorem claim_C2_amended_six_item_class (gen : Nat → List Nat) (df : Frame)
    (c : String) (hid : (df.map Row.id).Nodup)
    (h6 : 6 ≤ (df.filter (fun r => r.label = c)).length) :
    ∃ t v e, splitToTrainValTest gen df (7/10) (2/10) (1/10) = .ok (t, v, e)
      ∧ (∃ r ∈ t, r.label = c) ∧ (∃ r ∈ v, r.label = c) ∧ (∃ r ∈ e, r.label = c) := by
  obtain ⟨t, v, e, he, hperm, hcounts⟩ :=
    @splitToTrainValTest_spec (7/10) (2/10) (1/10) (by norm_num) (by norm_num)
      (by norm_num) (by norm_num) (by norm_num) gen df hid
  obtain ⟨h1, h2, h3⟩ := hcounts c
  obtain ⟨p1, p2, p3⟩ := groupSizes_default_pos h6
  have hget : ∀ (l : Frame), 0 < (l.filter (fun r => r.label = c)).length →
      ∃ r ∈ l, r.label = c := by
    intro l hl
    obtain ⟨x, hx⟩ := List.exists_mem_of_ne_nil _ (List.length_pos.mp hl)
    rcases List.mem_filter.mp hx with ⟨hxl, hxc⟩
    exact ⟨x, hxl, by simpa using hxc⟩
  refine ⟨t, v, e, he, hget t ?_, hget v ?_, hget e ?_⟩
  · rw [h1]
    omega
  · rw [h2]
    omega
  · rw [h3]
    omega

/-- Witness for the amended C2 on a concrete six-row class. -/
theorem claim_C2_amended_witness :
    ((dfA6.map Row.id).Nodup ∧ 6 ≤ (dfA6.filter (fun r => r.label = "A")).length)
    ∧ (∃ t v e, splitToTrainValTest gen0 dfA6 (7/10) (2/10) (1/10) = .ok (t, v, e)
      ∧ (∃ r ∈ t, r.label = "A") ∧ (∃ r ∈ v, r.label = "A")
      ∧ (∃ r ∈ e, r.label = "A")) :=
  ⟨⟨by decide, by norm_num [dfA6]⟩,
    claim_C2_amended_six_item_class gen0 dfA6 "A" (by decide) (by norm_num [dfA6])⟩

/-- Ten rows labelled "A" and ten rows labelled "B", distinct
identifiers. -/
def dfAB : Frame :=
  [⟨0, "A", "a0"⟩, ⟨1, "A", "a1"⟩, ⟨2, "A", "a2"⟩, ⟨3, "A", "a3"⟩, ⟨4, "A", "a4"⟩,
   ⟨5, "A", "a5"⟩, ⟨6, "A", "a6"⟩, ⟨7, "A", "a7"⟩, ⟨8, "A", "a8"⟩, ⟨9, "A", "a9"⟩,
   ⟨10, "B", "b0"⟩, ⟨11, "B", "b1"⟩, ⟨12, "B", "b2"⟩, ⟨13, "B", "b3"⟩, ⟨14, "B", "b4"⟩,
   ⟨15, "B", "b5"⟩, ⟨16, "B", "b6"⟩, ⟨17, "B", "b7"⟩, ⟨18, "B", "b8"⟩, ⟨19, "B", "b9"⟩]

/-- A frame all of whose rows carry one of two distinct labels has as
many rows as its two label filters together. -/
theorem length_eq_two_filters {l : Frame} {a b : String} (hab : a ≠ b)
    (h : ∀ r ∈ l, r.label = a ∨ r.label = b) :
    l.length = (l.filter (fun r => r.label = a)).length
      + (l.filter (fun r => r.label = b)).length := by
  have hp := (List.filter_append_perm (fun r => decide (r.label = a)) l).length_eq
  rw [List.length_append] at hp
  have hq : l.filter (fun x => !(decide (x.label = a)))
      = l.filter (fun r => r.label = b) := by
    apply List.filter_congr
    intro x hx
    rcases h x hx with hxa | hxb
    · simp only [hxa, decide_eq_true_eq]
      simp [hab]
    · simp only [hxb, decide_eq_true_eq]
      simp [Ne.symm hab]
  rw [hq] at hp
  exact hp.symm

/-- Claim C6: on the input of 10 items labelled "A" and 10 labelled "B"
with ratios (0.7, 0.2, 0.1), whatever the random draws, the call
returns a train set of 14 items (7 of each label), a validation set of
4 items (2 of each label), and a test set of 2 items (1 of each
label). -/
theorem claim_C6_example_sizes (gen : Nat → List Nat) :
    ∃ t v e, splitToTrainValTest gen dfAB (7/10) (2/10) (1/10) = .ok (t, v, e)
      ∧ t.length = 14 ∧ (t.filter (fun r => r.label = "A")).length = 7
        ∧ (t.filter (fun r => r.label = "B")).length = 7
      ∧ v.length = 4 ∧ (v.filter (fun r => r.label = "A")).length = 2
        ∧ (v.filter (fun r => r.label = "B")).length = 2
      ∧ e.length = 2 ∧ (e.filter (fun r => r.label = "A")).length = 1
        ∧ (e.filter (fun r => r.label = "B")).length = 1 := by
  obtain ⟨t, v, e, he, hperm, hcounts⟩ :=
    @splitToTrainValTest_spec (7/10) (2/10) (1/10) (by norm_num) (by norm_num)
      (by norm_num) (by norm_num) (by norm_num) gen dfAB (by decide)
  obtain ⟨ha1, ha2, ha3⟩ := hcounts "A"
  obtain ⟨hb1, hb2, hb3⟩ := hcounts "B"
  have hgA : (dfAB.filter (fun r => r.label = "A")).length = 10 := by decide
  have hgB : (dfAB.filter (fun r => r.label = "B")).length = 10 := by decide
  have hgs : groupSizes (7/10) (2/10) (1/10) 10 = (7, 2, 1) := by
    norm_num [groupSizes, pyRound, Int.toNat]
  rw [hgA, hgs] at ha1 ha2 ha3
  rw [hgB, hgs] at hb1 hb2 hb3
  norm_num at ha1 ha2 ha3 hb1 hb2 hb3
  have hABne : ("A" : String) ≠ "B" := by decide
  have hmem : ∀ r ∈ t ++ v ++ e, r.label = "A" ∨ r.label = "B" := by
    intro r hr
    have hrdf : r ∈ dfAB := hperm.mem_iff.mp hr
    have hl : r.label ∈ dfAB.map Row.label := List.mem_map_of_mem _ hrdf
    simpa [dfAB] using hl
  have hlt : t.length = 14 := by
    have := length_eq_two_filters hABne (fun r hr => hmem r
      (List.mem_append.mpr (Or.inl (List.mem_append.mpr (Or.inl hr)))))
    omega
  have hlv : v.length = 4 := by
    have := length_eq_two_filters hABne (fun r hr => hmem r
      (List.mem_append.mpr (Or.inl (List.mem_append.mpr (Or.inr hr)))))
    omega
  have hle : e.length = 2 := by
    have := length_eq_two_filters hABne (fun r hr => hmem r
      (List.mem_append.mpr (Or.inr hr)))
    omega
  exact ⟨t, v, e, he, hlt, ha1, hb1, hlv, ha2, hb2, hle, ha3, hb3⟩

/-- Four rows of one label, distinct identifiers. -/
def dfA4 : Frame := [⟨0, "A", "a0"⟩, ⟨1, "A", "a1"⟩, ⟨2, "A", "a2"⟩, ⟨3, "A", "a3"⟩]

/-- Claim C4, counterexample: the ratio triple (0.65, 0.2, 0.1) sums to
0.95, yet the call returns without any error: the function performs no
ratio validation, refuting the claimed `InvalidRatio` failure. -/
theorem claim_C4_cex_no_ratio_validation :
    ((13/20 : ℚ) + 1/5 + 1/10 ≠ 1)
    ∧ errPart (splitToTrainValTest gen0 dfA4 (13/20) (1/5) (1/10)) = none := by
  refine ⟨by norm_num, ?_⟩
  obtain ⟨t, v, e, he, -, -⟩ :=
    @splitToTrainValTest_spec (13/20) (1/5) (1/10) (by norm_num) (by norm_num)
      (by norm_num) (by norm_num) (by norm_num) gen0 dfA4 (by decide)
  rw [he]
  rfl

/-- Claim C4, amended: no ratio validation exists.  Ratios that do not
sum to 1 — such as (0.65, 0.2, 0.1), summing to 0.95 — are accepted:
on every dataset with distinct identifiers the call returns a complete
partition of the input rather than an `InvalidRatio` failure, and no
partial result arises (the embedding returns either a full triple or a
single error value). -/
theorem claim_C4_amended_no_validation (gen : Nat → List Nat) (df : Frame)
    (hid : (df.map Row.id).Nodup) :
    ∃ t v e, splitToTrainValTest gen df (13/20) (1/5) (1/10) = .ok (t, v, e)
      ∧ (t ++ v ++ e).Perm df := by
  obtain ⟨t, v, e, he, hperm, -⟩ :=
    @splitToTrainValTest_spec (13/20) (1/5) (1/10) (by norm_num) (by norm_num)
      (by norm_num) (by norm_num) (by norm_num) gen df hid
  exact ⟨t, v, e, he, hperm⟩

/-- Witness for the amended C4 on a concrete four-row frame. -/
theorem claim_C4_amended_witness :
    (dfA4.map Row.id).Nodup
    ∧ (∃ t v e, splitToTrainValTest gen0 dfA4 (13/20) (1/5) (1/10) = .ok (t, v, e)
      ∧ (t ++ v ++ e).Perm dfA4) :=
  ⟨by decide, claim_C4_amended_no_validation gen0 dfA4 (by decide)⟩

/-- Witness for C1 on a concrete two-row frame with ratios
(1/2, 1/4, 1/4). -/
theorem claim_C1_witness :
    (dfPair ≠ [] ∧ (dfPair.map Row.id).Nodup
      ∧ (0:ℚ) ≤ 1/2 ∧ (0:ℚ) ≤ 1/4 ∧ ((1/2 : ℚ) + 1/4 + 1/4 = 1)
      ∧ (0:ℚ) < 1/4 + 1/4)
    ∧ (∃ t v e, splitToTrainValTest gen0 dfPair (1/2) (1/4) (1/4) = .ok (t, v, e)
      ∧ ((t ++ v ++ e).map Row.id).Perm (dfPair.map Row.id)
      ∧ (∀ i ∈ dfPair.map Row.id, ((t ++ v ++ e).map Row.id).count i = 1)
      ∧ (∀ i, ¬ (i ∈ t.map Row.id ∧ i ∈ v.map Row.id))
      ∧ (∀ i, ¬ (i ∈ t.map Row.id ∧ i ∈ e.map Row.id))
      ∧ (∀ i, ¬ (i ∈ v.map Row.id ∧ i ∈ e.map Row.id))) :=
  ⟨⟨by simp [dfPair], by decide, by norm_num, by norm_num, by norm_num, by norm_num⟩,
    claim_C1_partition gen0 dfPair (1/2) (1/4) (1/4) (by simp [dfPair]) (by decide)
      (by norm_num) (by norm_num) (by norm_num) (by norm_num) (by norm_num)⟩

/-- Witness for C8 on a concrete two-row frame. -/
theorem claim_C8_witness :
    ((dfPair.map Row.id).Nodup
      ∧ (0:ℚ) ≤ 1/2 ∧ (0:ℚ) ≤ 1/4 ∧ ((1/2 : ℚ) + 1/4 + 1/4 = 1)
      ∧ (0:ℚ) < 1/4 + 1/4)
    ∧ (∃ t v e, splitToTrainValTest gen0 dfPair (1/2) (1/4) (1/4) = .ok (t, v, e)
      ∧ (t ++ v ++ e).Perm dfPair
      ∧ (∀ r, r ∈ t ++ v ++ e → r ∈ dfPair)) :=
  ⟨⟨by decide, by norm_num, by norm_num, by norm_num, by norm_num⟩,
    claim_C8_no_side_effects gen0 dfPair (1/2) (1/4) (1/4) (by decide)
      (by norm_num) (by norm_num) (by norm_num) (by norm_num) (by norm_num)⟩

/-- Witness for C3 on a concrete two-row group. -/
theorem claim_C3_witness :
    ((dfPair.map Row.id).Nodup
      ∧ (0:ℚ) ≤ 1/2 ∧ (1/2 : ℚ) ≤ 1 ∧ (0:ℚ) ≤ 1/4 ∧ (0:ℚ) < 1/4 + 1/4)
    ∧ (∃ T E, splitOneLabel (1/2) (1/4) (1/4) [] [] dfPair
        = .ok (T, dropIds (dropIds dfPair (T.map Row.id)) (E.map Row.id), E)
      ∧ T.length = (pyRound ((1/2) * (dfPair.length : ℚ))).toNat
      ∧ (T ++ dropIds dfPair (T.map Row.id)).Perm dfPair
      ∧ E.length = (pyRound (((1/4) / ((1/4) + (1/4)))
          * (((dropIds dfPair (T.map Row.id)).length : ℕ) : ℚ))).toNat
      ∧ (E ++ dropIds (dropIds dfPair (T.map Row.id)) (E.map Row.id)).Perm
          (dropIds dfPair (T.map Row.id))) :=
  ⟨⟨by decide, by norm_num, by norm_num, by norm_num, by norm_num⟩,
    claim_C3_group_algorithm (1/2) (1/4) (1/4) [] [] dfPair (by decide)
      (by norm_num) (by norm_num) (by norm_num) (by norm_num) (by norm_num)⟩

/-- Witness for C9 on a concrete non-empty frame. -/
theorem claim_C9_witness :
    (dfPair ≠ [])
    ∧ errPart (splitToTrainValTest gen0 dfPair 1 0 0) = some .zeroDiv :=
  ⟨by simp [dfPair], claim_C9_zero_ratio_division gen0 dfPair (by simp [dfPair])⟩
